import Mathlib

/-!
Formal model of the jh-gov-chatbot backend, embedded shallowly in Lean.

Conventions:
* Python strings are modelled as `List Char`; Python `int` as `ℤ`; `float`
  arithmetic is modelled exactly over `ℚ` (for the purely rational parts)
  and over `ℝ` (for the vector-store code, whose normalisation divides by
  a Euclidean norm).
* Fallible Python code (uncaught exceptions) is modelled with `Except`;
  the chunker's `while` loop, which may diverge for degenerate
  configurations, is modelled with explicit fuel returning `Option`.
-/

namespace JhGov

/-! ## Chunker: `backend/ingest.py` / `backend/level0/ingest.py`,
`split_into_chunks(pages, chunk_size, chunk_overlap)`.

A chunk is a dict `{"text", "page_start", "page_end"}`.  The mutable state
of the loop is the emitted chunk list, the `buffer` of
`(page_num, text piece)` pairs, and `current_len` (sum of the piece
lengths, not counting the newline separators that `"\n".join` inserts). -/

structure Chunk where
  text : List Char
  pageStart : ℕ
  pageEnd : ℕ
  deriving DecidableEq, Repr

structure BufSt where
  chunks : List Chunk
  buffer : List (ℕ × List Char)
  currentLen : ℕ
  deriving DecidableEq, Repr

/-- Model of Python `"\n".join(t for _, t in buffer)` on the list of texts. -/
def joinTexts : List (List Char) → List Char
  | [] => []
  | [t] => t
  | t :: ts => t ++ '\n' :: joinTexts ts

/-- Sum of the lengths of the buffered text pieces. -/
def sumLens (buf : List (ℕ × List Char)) : ℕ :=
  (buf.map (fun e => e.2.length)).sum

/-- The loop invariant of `split_into_chunks`: `current_len` is the sum of
the buffered piece lengths. -/
def bufInv (st : BufSt) : Prop :=
  st.currentLen = sumLens st.buffer

/-- Model of the inner `flush_chunk()` closure of `split_into_chunks`. -/
def pyFlush (chunkOverlap : ℤ) (st : BufSt) : BufSt :=
  match st.buffer with
  | [] => st
  | b :: bs =>
    let pageStart := b.1
    let pageEnd := (bs.getLastD b).1
    let content := joinTexts ((b :: bs).map Prod.snd)
    let chunks' := st.chunks ++ [⟨content, pageStart, pageEnd⟩]
    if 0 < chunkOverlap ∧ chunkOverlap < (content.length : ℤ) then
      let overlapText := content.drop (content.length - chunkOverlap.toNat)
      { chunks := chunks', buffer := [(pageEnd, overlapText)],
        currentLen := overlapText.length }
    else
      { chunks := chunks', buffer := [], currentLen := 0 }

/-- Model of the `while tokens:` loop body of `split_into_chunks` for one
page.  `fuel` bounds the number of loop iterations; `none` models a loop
that does not finish within the given fuel (the Python loop can diverge
when `chunk_size <= 0`). -/
def procTok (chunkSize chunkOverlap : ℤ) (pageNum : ℕ) :
    ℕ → List Char → BufSt → Option BufSt
  | _, [], st => some st
  | 0, _ :: _, _ => none
  | fuel + 1, t :: ts, st =>
    let tokens := t :: ts
    let remaining : ℤ := chunkSize - (st.currentLen : ℤ)
    if remaining ≤ 0 then
      procTok chunkSize chunkOverlap pageNum fuel tokens (pyFlush chunkOverlap st)
    else
      let take := tokens.take remaining.toNat
      let st' : BufSt :=
        { st with buffer := st.buffer ++ [(pageNum, take)],
                  currentLen := st.currentLen + take.length }
      let tokens' := tokens.drop remaining.toNat
      let st'' :=
        if chunkSize ≤ (st'.currentLen : ℤ) then pyFlush chunkOverlap st' else st'
      procTok chunkSize chunkOverlap pageNum fuel tokens' st''

/-- Model of the `for page_num, text in pages:` loop.  Each page gets fuel
`3 * text.length + 3`, which suffices whenever `0 < chunk_size`. -/
def procPages (chunkSize chunkOverlap : ℤ) :
    List (ℕ × List Char) → BufSt → Option BufSt
  | [], st => some st
  | (pageNum, text) :: rest, st =>
    (procTok chunkSize chunkOverlap pageNum (3 * text.length + 3) text st).bind
      (procPages chunkSize chunkOverlap rest)

/-- Model of `split_into_chunks(pages, chunk_size, chunk_overlap)`.
Returns `none` when the Python loop would not terminate. -/
def split_into_chunks (pages : List (ℕ × List Char))
    (chunkSize chunkOverlap : ℤ) : Option (List Chunk) :=
  (procPages chunkSize chunkOverlap pages ⟨[], [], 0⟩).map fun st =>
    if 0 < st.currentLen then (pyFlush chunkOverlap st).chunks else st.chunks

/-! ## Tier router: `backend/orchestrator/agent.py`, `decide_tool(question)`.

`decide_tool` returns `1` immediately when the LLM failed to initialise.
Otherwise it invokes the LLM and runs
`tool_name = int(decision.content.strip())`; an unparseable token makes
`int` raise `ValueError`, and an exception raised by `invoke` propagates —
neither is caught.  A parsed value outside `[0, 1, 2]` is replaced by `1`. -/

/-- Outcome of `llm.invoke(...)`: either a response with string content, or
an exception raised by the generation service. -/
inductive GenOutcome where
  | ok (content : String)
  | genFailure
  deriving DecidableEq, Repr

/-- Python exceptions that can escape `decide_tool`. -/
inductive PyError where
  | valueError
  | generateError
  deriving DecidableEq, Repr

/-- Model of Python `str.strip()`: drop whitespace from both ends. -/
def pyStrip (s : List Char) : List Char :=
  ((s.dropWhile Char.isWhitespace).reverse.dropWhile Char.isWhitespace).reverse

/-- Digits of a Python integer literal body, allowing single underscores
strictly between digits (as Python `int()` does). -/
def pyDigits : List Char → Bool
  | [] => false
  | [c] => c.isDigit
  | c :: '_' :: rest => c.isDigit && pyDigits rest
  | c :: rest => c.isDigit && pyDigits rest

/-- Numeric value of a digit string once underscores are removed. -/
def digitsVal (s : List Char) : ℕ :=
  (s.filter (· ≠ '_')).foldl (fun acc c => 10 * acc + (c.toNat - '0'.toNat)) 0

/-- Model of Python `int(s)` on a string: strips whitespace, accepts an
optional sign followed by digits, raises `ValueError` otherwise. -/
def pyInt (s : List Char) : Except PyError ℤ :=
  match pyStrip s with
  | '+' :: rest => if pyDigits rest then .ok (digitsVal rest) else .error .valueError
  | '-' :: rest => if pyDigits rest then .ok (-(digitsVal rest : ℤ)) else .error .valueError
  | body => if pyDigits body then .ok (digitsVal body) else .error .valueError

/-- Model of `decide_tool(question)`.  `llmInit` is whether the module-level
LLM initialised; `gen` is the outcome of `llm.invoke` on the routing
prompt.  An `Except.error` models an uncaught Python exception. -/
def decide_tool (llmInit : Bool) (gen : GenOutcome) : Except PyError ℤ :=
  if !llmInit then .ok 1
  else
    match gen with
    | .genFailure => .error .generateError
    | .ok content =>
      match pyInt (pyStrip content.toList) with
      | .error e => .error e
      | .ok n => .ok (if n = 0 ∨ n = 1 ∨ n = 2 then n else 1)

/-! ## Target sizing: `backend/orchestrator/ingestion_tools.py`,
`MultiLevelIngestTool._run`.

`target_level1_chars = int(level2_char_count * config.LEVEL2_TO_1_RATIO)`
and `target_level0_chars = int(level1_char_count * config.LEVEL1_TO_0_RATIO)`.
The compression fraction is modelled as an exact rational. -/

/-- Model of Python `int()` applied to a number: truncation toward zero. -/
def pyTruncInt (q : ℚ) : ℤ :=
  if 0 ≤ q then ⌊q⌋ else -⌊-q⌋

/-- Model of Python `round()` on a number: round half to even. -/
def pyRound (q : ℚ) : ℤ :=
  if q - (⌊q⌋ : ℚ) < 1 / 2 then ⌊q⌋
  else if 1 / 2 < q - (⌊q⌋ : ℚ) then ⌊q⌋ + 1
  else if Even ⌊q⌋ then ⌊q⌋ else ⌊q⌋ + 1

/-- Model of the target-character computation used for both compression
levels: `int(char_count * compression_fraction)`. -/
def targetChars (charCount : ℕ) (frac : ℚ) : ℤ :=
  pyTruncInt ((charCount : ℚ) * frac)

/-! ## Embeddings clients: `backend/rag.py` and `backend/level0/rag.py`,
`EmbeddingsClient.embed(texts)`.

Both run `genai.embed_content` on batches of `batch_size = 64` texts and
stack the returned vectors.  The provider is modelled as an oracle from a
batch to a response shape.  In `backend/level0/rag.py` the final `return`
statement sits inside the `for` loop over batches, so that version returns
after the first batch. -/

/-- A numeric vector returned by the embeddings provider. -/
abbrev EmbVec := List ℚ

/-- Shape of a `genai.embed_content` response as discriminated by `embed`:
a list of embeddings, a single embedding, or an unrecognized shape. -/
inductive EmbResp where
  | many (vecs : List EmbVec)
  | single (v : EmbVec)
  | unrecognized
  deriving DecidableEq, Repr

/-- An embeddings provider: maps a batch of texts to a response. -/
abbrev EmbOracle := List String → EmbResp

/-- A NumPy-style 2-D array: row list plus column count. -/
structure NpArr where
  rows : List EmbVec
  ncols : ℕ
  deriving DecidableEq, Repr

/-- Worker for `batches64`; `fuel` is an upper bound on the input length,
making the recursion structural so that the kernel can evaluate it. -/
def batchesGo : ℕ → List String → List (List String)
  | _, [] => []
  | 0, _ :: _ => []
  | fuel + 1, t :: ts => (t :: ts).take 64 :: batchesGo fuel ((t :: ts).drop 64)

/-- Batches of 64, as produced by `range(0, total, self.batch_size)` with
the default `batch_size = 64`. -/
def batches64 (texts : List String) : List (List String) :=
  batchesGo texts.length texts

/-- Vectors extracted from one provider response, or a raised
`RuntimeError` for an unrecognized shape. -/
def respVectors : EmbResp → Except PyError (List EmbVec)
  | .many vecs => .ok vecs
  | .single v => .ok [v]
  | .unrecognized => .error .valueError

/-- Column count of `np.vstack` of the collected rows (the length of the
first row; `embed` only reaches this with at least one batch). -/
def vstackCols (rows : List EmbVec) : ℕ :=
  ((rows.head?).map List.length).getD 0

/-- Model of `EmbeddingsClient.embed` from `backend/rag.py`.  Returns the
stacked array together with the number of provider calls made. -/
def embedBackend (oracle : EmbOracle) (texts : List String) :
    Except PyError (NpArr × ℕ) :=
  if texts = [] then .ok (⟨[], 768⟩, 0)
  else
    (batches64 texts).foldlM
      (fun acc batch =>
        (respVectors (oracle batch)).map fun vecs =>
          (acc.1 ++ vecs, acc.2 + 1))
      (([] : List EmbVec), 0) |>.map fun acc =>
      (⟨acc.1, vstackCols acc.1⟩, acc.2)

/-- Model of `EmbeddingsClient.embed` from `backend/level0/rag.py`: the
`return` statement is inside the batch loop, so on a non-empty input the
function returns the stacked vectors of the first batch only (after a
single provider call).  An unrecognized response is re-raised as
`RuntimeError("Embedding failed")`. -/
def embedLevel0 (oracle : EmbOracle) (texts : List String) :
    Except PyError (NpArr × ℕ) :=
  if texts = [] then .ok (⟨[], 768⟩, 0)
  else
    (respVectors (oracle (texts.take 64))).map fun vecs =>
      (⟨vecs, vstackCols vecs⟩, 1)

/-- A well-behaved provider for concrete runs: one 1-dimensional vector
per text in the batch. -/
def unitOracle : EmbOracle := fun batch => .many (batch.map fun _ => [0])

/-! ## Vector index: `backend/vectorstore.py`, class `FaissStore`.

The FAISS `IndexFlatIP` is modelled as the list of stored (normalised)
vectors; float arithmetic is modelled exactly over `ℝ`, with the Euclidean
norm of NumPy's `np.linalg.norm`.  The float literal `1e-12` is modelled
as the real `10⁻¹²`, and the two `astype(np.float32)` casts (on the
normalised rows in `add` and on the normalised query in `search`) are
modelled as the identity — so a concrete conclusion about scores is drawn
only where it is robust to float32 rounding, i.e. where the score gap is
far above float32 resolution.  `id_to_meta` is an insertion-ordered dict with `ℤ`
keys (the JSON round-trip `str ∘ int` on keys is the identity and is not
modelled separately).  FAISS's `search` returns the `top_k` ids ordered by
decreasing inner product; ties are modelled as broken by ascending id. -/

/-- A float vector. -/
abbrev RVec := List ℝ

/-- The literal `1e-12` added to norms before dividing. -/
noncomputable def eps : ℝ := 1 / 10 ^ 12

/-- Model of `np.linalg.norm` on one row: the Euclidean norm. -/
noncomputable def norm2 (v : RVec) : ℝ :=
  Real.sqrt (v.map (fun x => x * x)).sum

/-- One row of `embeddings / (norms + 1e-12)`; the subsequent
`astype(np.float32)` cast is modelled as the identity (exact reals). -/
noncomputable def normalizeRow (v : RVec) : RVec :=
  v.map (fun x => x / (norm2 v + eps))

/-- Inner product of two vectors, as computed by `IndexFlatIP`. -/
noncomputable def dotR (a b : RVec) : ℝ :=
  (List.zipWith (fun x y => x * y) a b).sum

/-- Model of Python dict assignment `d[k] = v` on an insertion-ordered
association list. -/
def dictSet {α : Type} (d : List (ℤ × α)) (k : ℤ) (v : α) : List (ℤ × α) :=
  if (d.map Prod.fst).contains k then
    d.map (fun e => if e.1 = k then (k, v) else e)
  else d ++ [(k, v)]

/-- Model of Python `d.get(k)` on an association list. -/
def dictGet {α : Type} (d : List (ℤ × α)) (k : ℤ) : Option α :=
  (d.find? (fun e => e.1 = k)).map Prod.snd

/-- Model of `for i, meta in enumerate(metadatas): id_to_meta[start_id + i] = meta`. -/
def addMetas {α : Type} : List (ℤ × α) → ℤ → List α → List (ℤ × α)
  | d, _, [] => d
  | d, s, m :: ms => addMetas (dictSet d s m) (s + 1) ms

/-- Model of a `FaissStore` instance: the FAISS index (or `None`), the
metadata dict and the id counter. -/
structure FaissStore (α : Type) where
  index : Option (List RVec)
  idToMeta : List (ℤ × α)
  nextId : ℤ

/-- A freshly constructed `FaissStore`. -/
def emptyStore {α : Type} : FaissStore α := ⟨none, [], 0⟩

/-- Model of `FaissStore.add(embeddings, metadatas)`: normalise the rows,
ensure the index exists, append the vectors, record the metadata at ids
`next_id, next_id+1, ...`, and advance `next_id` by the number of rows. -/
noncomputable def FaissStore.add {α : Type} (st : FaissStore α)
    (embeddings : List RVec) (metadatas : List α) : FaissStore α :=
  { index := some ((st.index.getD []) ++ embeddings.map normalizeRow),
    idToMeta := addMetas st.idToMeta st.nextId metadatas,
    nextId := st.nextId + embeddings.length }

/-- Comparator ordering ids by decreasing score, ties by ascending id
(the deterministic model of FAISS's result order). -/
noncomputable def cmpScore (s : ℕ → ℝ) (i j : ℕ) : Bool :=
  if s j < s i then true else if s i = s j ∧ i ≤ j then true else false

/-- Insert into a list sorted by the comparator `cmp`. -/
def insSorted (cmp : ℕ → ℕ → Bool) (x : ℕ) : List ℕ → List ℕ
  | [] => [x]
  | y :: ys => if cmp x y then x :: y :: ys else y :: insSorted cmp x ys

/-- Sort a list of ids by the comparator `cmp` (insertion sort). -/
def sortIdx (cmp : ℕ → ℕ → Bool) (l : List ℕ) : List ℕ :=
  l.foldr (insSorted cmp) []

/-- Model of `FaissStore.search(query_emb, top_k)`: normalise the query
(`astype(np.float32)` modelled as the identity, exact reals),
return `[]` for a missing or empty index, otherwise score every stored
vector by inner product, keep the `top_k` best ids, and attach metadata,
silently skipping ids without a metadata entry (`if not meta: continue`;
the falsy-empty-dict case is subsumed by the missing-key case since the
metadata type is abstract here). -/
noncomputable def FaissStore.search {α : Type} (st : FaissStore α)
    (q : RVec) (topK : ℕ) : List (ℝ × α) :=
  let qn := q.map (fun x => x / (norm2 q + eps))
  match st.index with
  | none => []
  | some vecs =>
    if vecs.length = 0 then []
    else
      let s : ℕ → ℝ := fun i => dotR qn (vecs.getD i [])
      let ids := (sortIdx (cmpScore s) (List.range vecs.length)).take topK
      ids.filterMap fun (i : ℕ) => (dictGet st.idToMeta (i : ℤ)).map fun m => (s i, m)

/-- The JSON metadata artifact: the id-to-metadata map and the persisted
counter (`None` models a payload without a `"next_id"` key). -/
structure MetaPayload (α : Type) where
  idToMeta : List (ℤ × α)
  nextId : Option ℤ

/-- The on-disk state at the two artifact paths: the FAISS index file (if
present) and the metadata JSON file (if present). -/
structure SavedFiles (α : Type) where
  indexFile : Option (List RVec)
  metaFile : Option (MetaPayload α)

/-- Model of `FaissStore.save()` to fresh artifact paths: the index file is
written exactly when the index exists; the metadata file always carries
`id_to_meta` and `next_id`. -/
def FaissStore.save {α : Type} (st : FaissStore α) : SavedFiles α :=
  ⟨st.index, some ⟨st.idToMeta, some st.nextId⟩⟩

/-- Number of vectors `V` found in the index artifact (`index.ntotal`,
or `0` when the file is absent). -/
def filesVectors {α : Type} (files : SavedFiles α) : ℕ :=
  match files.indexFile with
  | some vecs => vecs.length
  | none => 0

/-- Model of `FaissStore.load()` on a fresh instance: read the index file
if present; if the metadata file is present take its map and
`payload.get("next_id", vectors)`, else reset the map and set
`next_id = vectors`. -/
def FaissStore.load {α : Type} (files : SavedFiles α) : FaissStore α :=
  match files.metaFile with
  | some payload =>
    ⟨files.indexFile, payload.idToMeta, payload.nextId.getD (filesVectors files)⟩
  | none => ⟨files.indexFile, [], (filesVectors files : ℤ)⟩

/-- Modelled from the spec (`load()` reconciliation): the value the spec
says `next_id` must have after `load()` — the larger of the stored vector
count `V` and the persisted counter `c`, or `V` when no counter is
persisted. -/
def specLoadNextId {α : Type} (files : SavedFiles α) : ℤ :=
  match files.metaFile with
  | some payload =>
    match payload.nextId with
    | some c => max (filesVectors files : ℤ) c
    | none => (filesVectors files : ℤ)
  | none => (filesVectors files : ℤ)

/-- A sequence of `add` calls applied to a store. -/
noncomputable def runAdds {α : Type} (calls : List (List RVec × List α))
    (st : FaissStore α) : FaissStore α :=
  calls.foldl (fun acc c => acc.add c.1 c.2) st

/-- The persisted counter, when the metadata artifact is present and holds
a `"next_id"` key. -/
def metaCounter {α : Type} (files : SavedFiles α) : Option ℤ :=
  match files.metaFile with
  | some payload => payload.nextId
  | none => none

/-- A store holding one vector `(1, 0)` with one metadata record, obtained
by a single `add` on a fresh store. -/
noncomputable def storeC9 : FaissStore Unit :=
  FaissStore.add emptyStore [[1, 0]] [()]

/-- Persisted state with five stored vectors but a stale counter `3`. -/
def filesStale : SavedFiles Unit :=
  ⟨some (List.replicate 5 ([] : RVec)), some ⟨[], some 3⟩⟩

/-- Persisted state with two stored vectors and a fresh counter `7`. -/
def filesFresh : SavedFiles Unit :=
  ⟨some (List.replicate 2 ([] : RVec)), some ⟨[], some 7⟩⟩

/-- The invariant tying a store to the number `n` of vectors added so far:
the counter is `n`, the metadata keys are exactly `0, ..., n-1` in
insertion order, and the index holds `n` vectors. -/
def storeInv {α : Type} (st : FaissStore α) (n : ℕ) : Prop :=
  st.nextId = (n : ℤ) ∧
  st.idToMeta.map Prod.fst = (List.range n).map (fun i : ℕ => (i : ℤ)) ∧
  (st.index.getD []).length = n

/-- A concrete two-call `add` sequence totalling three vectors. -/
noncomputable def callsW : List (List RVec × List Unit) :=
  [([[1]], [()]), ([[2], [3]], [(), ()])]

/-! ## Theorems settling the claims -/

/-- C10: calling `embed` (either version) on the empty list of texts
returns the empty array of shape `(0, 768)` after zero provider calls,
regardless of the provider's behaviour. -/
theorem c10_embed_empty (oracle : EmbOracle) :
    embedBackend oracle [] = .ok (⟨[], 768⟩, 0) ∧
    embedLevel0 oracle [] = .ok (⟨[], 768⟩, 0) :=
  ⟨rfl, rfl⟩

/-- C2: evaluating `decide_tool` at the failing input — the generation
service returns the unparseable token `"summary"` — shows the uncaught
`ValueError` from `int(...)`, instead of the summary-tier fallback `1`
that the claim states; the fallback does fire for an out-of-range token
and for an uninitialised LLM. -/
theorem c2_decide_tool_unparseable_raises :
    decide_tool true (.ok "summary") = .error .valueError ∧
    decide_tool true (.ok "7") = .ok 1 ∧
    decide_tool false .genFailure = .ok 1 :=
  ⟨rfl, rfl, rfl⟩

/-- C4: evaluating the two `embed` models at the failing input — 65 texts
with a provider returning one vector per text — shows that the
`backend/level0/rag.py` version returns only the 64 rows of the first
batch (its `return` is inside the batch loop), while the `backend/rag.py`
version returns all 65 rows as the claim states. -/
theorem c4_level0_embed_truncates :
    (embedLevel0 unitOracle (List.replicate 65 "t")).map
      (fun p => p.1.rows.length) = .ok 64 ∧
    (embedBackend unitOracle (List.replicate 65 "t")).map
      (fun p => p.1.rows.length) = .ok 65 :=
  ⟨rfl, rfl⟩

/-- C8: for all vectors and metadata, `add` then `save` then `load` into a
fresh instance yields a store whose `search` results are identical — same
scores, same metadata, same order — to the pre-save instance's, for every
query and every `top_k`. -/
theorem c8_save_load_search {α : Type} (V : List RVec) (M : List α)
    (q : RVec) (k : ℕ) :
    (FaissStore.load ((emptyStore.add V M).save)).search q k =
      (emptyStore.add V M).search q k := by
  have h : ∀ st : FaissStore α, FaissStore.load st.save = st := fun st => by
    cases st; rfl
  rw [h]

/-- C6 counterexample: at a source text of 3 characters and compression
fraction `1/2` the code passes `int(3 * 0.5) = 1` as the target character
count, while `round(3 * 0.5) = 2`; so the target does not equal
`round(len * fraction)` as claimed. -/
theorem c6_counterexample :
    targetChars 3 (1 / 2) = 1 ∧ pyRound ((3 : ℚ) * (1 / 2)) = 2 ∧
    targetChars 3 (1 / 2) ≠ pyRound ((3 : ℚ) * (1 / 2)) := by
  refine ⟨?_, ?_, ?_⟩ <;>
    norm_num [targetChars, pyTruncInt, pyRound, Int.even_iff]

/-- C6 amended: the target character count passed to each compression
level equals the truncation `int(char_count * fraction)`, which for the
nonnegative values in question is the floor of `char_count * fraction`,
not its rounding. -/
theorem c6_target_is_floor (n : ℕ) (frac : ℚ) (h : 0 ≤ frac) :
    targetChars n frac = ⌊(n : ℚ) * frac⌋ := by
  unfold targetChars pyTruncInt
  rw [if_pos (mul_nonneg (by positivity) h)]

/-- C6 witness: the amended statement at `n = 7`, `fraction = 1/5`. -/
theorem c6_target_is_floor_witness :
    0 ≤ (1 / 5 : ℚ) ∧ targetChars 7 (1 / 5) = ⌊(7 : ℚ) * (1 / 5)⌋ :=
  ⟨by simp, c6_target_is_floor 7 (1 / 5) (by simp)⟩

/-- C3 counterexample: with five vectors in the index artifact and a stale
persisted counter `3`, `load()` sets `next_id = 3`, not
`max(V, c) = 5` as the claim states — so a stale counter can re-issue ids
already assigned to stored vectors. -/
theorem c3_counterexample :
    (FaissStore.load filesStale).nextId = 3 ∧ specLoadNextId filesStale = 5 ∧
    (FaissStore.load filesStale).nextId ≠ specLoadNextId filesStale :=
  ⟨rfl, rfl, by decide⟩

/-- C3 amended: after `load()`, `next_id` equals the persisted counter
when one is present and otherwise the stored vector count `V`; this
coincides with the reconciliation `max(V, c)` the claim states exactly
when any persisted counter is at least `V` (a stale smaller counter is
kept as-is). -/
theorem c3_load_next_id {α : Type} (files : SavedFiles α)
    (h : ∀ c, metaCounter files = some c → (filesVectors files : ℤ) ≤ c) :
    (FaissStore.load files).nextId = specLoadNextId files := by
  rcases files with ⟨idx, meta⟩
  cases meta with
  | none => rfl
  | some payload =>
    cases hn : payload.nextId with
    | none => simp [FaissStore.load, specLoadNextId, hn]
    | some c =>
      have hc := h c (by simp [metaCounter, hn])
      simp [FaissStore.load, specLoadNextId, hn]
      omega

/-- C3 witness: the amended statement at two stored vectors and a
persisted counter `7`. -/
theorem c3_load_next_id_witness :
    (∀ c, metaCounter filesFresh = some c → (filesVectors filesFresh : ℤ) ≤ c) ∧
    (FaissStore.load filesFresh).nextId = specLoadNextId filesFresh := by
  have h : ∀ c, metaCounter filesFresh = some c → (filesVectors filesFresh : ℤ) ≤ c := by
    intro c hc
    simp [metaCounter, filesFresh] at hc
    simp [filesVectors, filesFresh, ← hc]
  exact ⟨h, c3_load_next_id filesFresh h⟩

lemma dictSet_fresh {α : Type} (d : List (ℤ × α)) (k : ℤ) (v : α)
    (h : k ∉ d.map Prod.fst) : dictSet d k v = d ++ [(k, v)] := by
  unfold dictSet
  rw [if_neg]
  simpa using h

lemma addMetas_keys {α : Type} (metas : List α) :
    ∀ (d : List (ℤ × α)) (n : ℕ),
      d.map Prod.fst = (List.range n).map (fun i : ℕ => (i : ℤ)) →
      (addMetas d (n : ℤ) metas).map Prod.fst
        = (List.range (n + metas.length)).map (fun i : ℕ => (i : ℤ)) := by
  induction metas with
  | nil => intro d n hd; simpa using hd
  | cons m ms IH =>
    intro d n hd
    have hfresh : (n : ℤ) ∉ d.map Prod.fst := by
      rw [hd]
      simp only [List.mem_map, List.mem_range, not_exists, not_and]
      intro i hi
      omega
    have hstep : addMetas d (n : ℤ) (m :: ms)
        = addMetas (d ++ [((n : ℤ), m)]) ((n + 1 : ℕ) : ℤ) ms := by
      have : ((n : ℤ) + 1) = ((n + 1 : ℕ) : ℤ) := by push_cast; ring
      rw [← this, ← dictSet_fresh d (n : ℤ) m hfresh]
      rfl
    rw [hstep, IH (d ++ [((n : ℤ), m)]) (n + 1) (by simp [hd, List.range_succ]),
      show n + 1 + ms.length = n + (ms.length + 1) from by omega]
    simp

lemma add_storeInv {α : Type} (st : FaissStore α) (V : List RVec)
    (Ms : List α) (n : ℕ) (hinv : storeInv st n) (hlen : Ms.length = V.length) :
    storeInv (st.add V Ms) (n + V.length) := by
  obtain ⟨h1, h2, h3⟩ := hinv
  refine ⟨?_, ?_, ?_⟩
  · simp only [FaissStore.add, h1]
    push_cast
    ring
  · simp only [FaissStore.add, h1]
    rw [addMetas_keys Ms st.idToMeta n h2, hlen]
  · simp [FaissStore.add, h3]

lemma runAdds_storeInv {α : Type} (calls : List (List RVec × List α)) :
    ∀ (st : FaissStore α) (n : ℕ), storeInv st n →
      (∀ c ∈ calls, c.2.length = c.1.length) →
      storeInv (runAdds calls st) (n + (calls.map (fun c => c.1.length)).sum) := by
  induction calls with
  | nil => intro st n h _; simpa [runAdds] using h
  | cons c cs IH =>
    intro st n h hlen
    have h1 := add_storeInv st c.1 c.2 n h (hlen c (by simp))
    have h2 := IH (st.add c.1 c.2) (n + c.1.length) h1
      (fun x hx => hlen x (by simp [hx]))
    have harith : n + c.1.length + (cs.map (fun c => c.1.length)).sum
        = n + ((c :: cs).map (fun c => c.1.length)).sum := by
      simp
      omega
    rw [harith] at h2
    simpa [runAdds] using h2

/-- C7: starting from an empty store, after any sequence of `add` calls
passing one metadata record per vector and totalling `M` vectors:
`next_id = M`; the metadata keys are pairwise distinct; the index holds
`M` vectors; an id has a metadata entry exactly when it names a stored
vector; and `next_id` equals the greatest key plus one, or `0` when the
store is empty. -/
theorem c7_next_id_invariants {α : Type} (calls : List (List RVec × List α))
    (h : ∀ c ∈ calls, c.2.length = c.1.length) :
    (runAdds calls (emptyStore : FaissStore α)).nextId
        = (((calls.map (fun c => c.1.length)).sum : ℕ) : ℤ) ∧
    ((runAdds calls (emptyStore : FaissStore α)).idToMeta.map Prod.fst).Nodup ∧
    ((runAdds calls (emptyStore : FaissStore α)).index.getD []).length
        = (calls.map (fun c => c.1.length)).sum ∧
    (∀ i : ℕ,
      (i : ℤ) ∈ (runAdds calls (emptyStore : FaissStore α)).idToMeta.map Prod.fst ↔
        i < ((runAdds calls (emptyStore : FaissStore α)).index.getD []).length) ∧
    ((runAdds calls (emptyStore : FaissStore α)).idToMeta.map Prod.fst = [] →
      (runAdds calls (emptyStore : FaissStore α)).nextId = 0) ∧
    (∀ k ∈ (runAdds calls (emptyStore : FaissStore α)).idToMeta.map Prod.fst,
      k + 1 ≤ (runAdds calls (emptyStore : FaissStore α)).nextId) ∧
    ((runAdds calls (emptyStore : FaissStore α)).idToMeta.map Prod.fst ≠ [] →
      (runAdds calls (emptyStore : FaissStore α)).nextId - 1
        ∈ (runAdds calls (emptyStore : FaissStore α)).idToMeta.map Prod.fst) := by
  have hempty : storeInv (emptyStore : FaissStore α) 0 := by
    refine ⟨rfl, rfl, rfl⟩
  obtain ⟨h1, h2, h3⟩ := runAdds_storeInv calls emptyStore 0 hempty h
  rw [Nat.zero_add] at h1 h2 h3
  refine ⟨h1, ?_, h3, ?_, ?_, ?_, ?_⟩
  · rw [h2]
    exact (List.nodup_range _).map (fun a b => by omega)
  · intro i
    rw [h2, h3]
    simp only [List.mem_map, List.mem_range]
    constructor
    · rintro ⟨j, hj, hji⟩
      omega
    · intro hi
      exact ⟨i, hi, rfl⟩
  · intro hnil
    rw [h2] at hnil
    simp only [List.map_eq_nil_iff, List.range_eq_nil] at hnil
    rw [h1, hnil]
    rfl
  · intro k hk
    rw [h2] at hk
    simp only [List.mem_map, List.mem_range] at hk
    obtain ⟨j, hj, hjk⟩ := hk
    rw [h1]
    omega
  · intro hnil
    rw [h2] at hnil ⊢
    rw [h1]
    simp only [ne_eq, List.map_eq_nil_iff, List.range_eq_nil] at hnil
    simp only [List.mem_map, List.mem_range]
    refine ⟨(calls.map (fun c => c.1.length)).sum - 1, by omega, by omega⟩

/-- C7 witness: the invariants at a concrete two-call sequence totalling
three vectors. -/
theorem c7_next_id_invariants_witness :
    (∀ c ∈ callsW, c.2.length = c.1.length) ∧
    ((runAdds callsW (emptyStore : FaissStore Unit)).nextId
        = (((callsW.map (fun c => c.1.length)).sum : ℕ) : ℤ) ∧
    ((runAdds callsW (emptyStore : FaissStore Unit)).idToMeta.map Prod.fst).Nodup ∧
    ((runAdds callsW (emptyStore : FaissStore Unit)).index.getD []).length
        = (callsW.map (fun c => c.1.length)).sum ∧
    (∀ i : ℕ,
      (i : ℤ) ∈ (runAdds callsW (emptyStore : FaissStore Unit)).idToMeta.map Prod.fst ↔
        i < ((runAdds callsW (emptyStore : FaissStore Unit)).index.getD []).length) ∧
    ((runAdds callsW (emptyStore : FaissStore Unit)).idToMeta.map Prod.fst = [] →
      (runAdds callsW (emptyStore : FaissStore Unit)).nextId = 0) ∧
    (∀ k ∈ (runAdds callsW (emptyStore : FaissStore Unit)).idToMeta.map Prod.fst,
      k + 1 ≤ (runAdds callsW (emptyStore : FaissStore Unit)).nextId) ∧
    ((runAdds callsW (emptyStore : FaissStore Unit)).idToMeta.map Prod.fst ≠ [] →
      (runAdds callsW (emptyStore : FaissStore Unit)).nextId - 1
        ∈ (runAdds callsW (emptyStore : FaissStore Unit)).idToMeta.map Prod.fst)) := by
  have h : ∀ c ∈ callsW, c.2.length = c.1.length := by
    intro c hc
    simp only [callsW, List.mem_cons, List.not_mem_nil, or_false] at hc
    rcases hc with rfl | rfl <;> rfl
  exact ⟨h, c7_next_id_invariants callsW h⟩

lemma procTok_nil (cs co : ℤ) (pn : ℕ) (fuel : ℕ) (st : BufSt) :
    procTok cs co pn fuel [] st = some st := by
  cases fuel <;> rfl

lemma procTok_cons_succ (cs co : ℤ) (pn fuel : ℕ) (t : Char) (ts : List Char)
    (st : BufSt) :
    procTok cs co pn (fuel + 1) (t :: ts) st =
      if cs - (st.currentLen : ℤ) ≤ 0 then
        procTok cs co pn fuel (t :: ts) (pyFlush co st)
      else
        procTok cs co pn fuel ((t :: ts).drop (cs - (st.currentLen : ℤ)).toNat)
          (if cs ≤ ((st.currentLen
                + ((t :: ts).take (cs - (st.currentLen : ℤ)).toNat).length : ℕ) : ℤ)
            then
              pyFlush co
                { st with
                  buffer := st.buffer
                    ++ [(pn, (t :: ts).take (cs - (st.currentLen : ℤ)).toNat)],
                  currentLen := st.currentLen
                    + ((t :: ts).take (cs - (st.currentLen : ℤ)).toNat).length }
            else
              { st with
                buffer := st.buffer
                  ++ [(pn, (t :: ts).take (cs - (st.currentLen : ℤ)).toNat)],
                currentLen := st.currentLen
                  + ((t :: ts).take (cs - (st.currentLen : ℤ)).toNat).length }) :=
  rfl

lemma sumLens_append (a b : List (ℕ × List Char)) :
    sumLens (a ++ b) = sumLens a + sumLens b := by
  simp [sumLens]

lemma joinTexts_length : ∀ l : List (List Char),
    (joinTexts l).length = (l.map List.length).sum + l.length - 1
  | [] => rfl
  | [t] => by simp [joinTexts]
  | t :: t' :: ts => by
    have IH := joinTexts_length (t' :: ts)
    show (t ++ '\n' :: joinTexts (t' :: ts)).length = _
    simp only [List.length_append, List.length_cons, IH, List.map_cons,
      List.sum_cons]
    omega

lemma content_length (b : ℕ × List Char) (bs : List (ℕ × List Char)) :
    (joinTexts ((b :: bs).map Prod.snd)).length
      = sumLens (b :: bs) + (b :: bs).length - 1 := by
  rw [joinTexts_length, List.map_map, List.length_map]
  rfl

lemma bufInv_ne_nil (st : BufSt) (h : bufInv st) (h0 : 0 < st.currentLen) :
    st.buffer ≠ [] := by
  intro hb
  rw [bufInv, hb] at h
  simp [sumLens] at h
  omega

lemma pyFlush_chunks_cons (co : ℤ) (st : BufSt) (b : ℕ × List Char)
    (bs : List (ℕ × List Char)) (h : st.buffer = b :: bs) :
    ∃ ch : Chunk, (pyFlush co st).chunks = st.chunks ++ [ch] ∧
      ch.text.length = sumLens st.buffer + st.buffer.length - 1 := by
  rcases st with ⟨cks, buf, len⟩
  simp only at h
  subst h
  simp only [pyFlush]
  split
  · exact ⟨_, rfl, content_length b bs⟩
  · exact ⟨_, rfl, content_length b bs⟩

lemma pyFlush_bufInv (co : ℤ) (st : BufSt) (h : st.buffer ≠ []) :
    bufInv (pyFlush co st) := by
  rcases st with ⟨cks, buf, len⟩
  rcases buf with _ | ⟨b, bs⟩
  · exact absurd rfl h
  · simp only [pyFlush]
    split
    · simp [bufInv, sumLens]
    · simp [bufInv, sumLens]

lemma pyFlush_cl (co : ℤ) (st : BufSt) (h : st.buffer ≠ []) :
    ((pyFlush co st).currentLen = 0 ∧ (pyFlush co st).buffer = []) ∨
      (0 < co ∧ (pyFlush co st).currentLen = co.toNat ∧
        (pyFlush co st).buffer.length = 1 ∧
        sumLens (pyFlush co st).buffer = co.toNat) := by
  rcases st with ⟨cks, buf, len⟩
  rcases buf with _ | ⟨b, bs⟩
  · exact absurd rfl h
  · simp only [pyFlush]
    split
    · rename_i hcond
      right
      simp only [List.map_cons] at hcond ⊢
      refine ⟨hcond.1, ?_, rfl, ?_⟩
      · simp only [List.length_drop]
        omega
      · simp only [sumLens, List.map_cons, List.map_nil, List.sum_cons,
          List.sum_nil, List.length_drop]
        omega
    · exact Or.inl ⟨rfl, rfl⟩

lemma pyFlush_single_small (co : ℤ) (st : BufSt) (b : ℕ × List Char)
    (h : st.buffer = [b]) (hlen : ((b.2.length : ℕ) : ℤ) ≤ co) :
    (pyFlush co st).currentLen = 0 ∧ bufInv (pyFlush co st) := by
  rcases st with ⟨cks, buf, len⟩
  simp only at h
  subst h
  simp only [pyFlush]
  rw [if_neg]
  · exact ⟨rfl, by simp [bufInv, sumLens]⟩
  · rintro ⟨h1, h2⟩
    have : joinTexts ([b].map Prod.snd) = b.2 := rfl
    rw [this] at h2
    omega

lemma procTok_bound (cs co : ℤ) (pn : ℕ) (hco : 0 < co) (hlt : co < cs) :
    ∀ (fuel : ℕ) (tokens : List Char) (st st' : BufSt), bufInv st →
      (st.currentLen : ℤ) < cs →
      procTok cs co pn fuel tokens st = some st' →
      bufInv st' ∧ (st'.currentLen : ℤ) < cs ∧
      st'.buffer.length ≤ max (st.buffer.length + 1) 2 ∧
      ∀ ch ∈ st'.chunks, ch ∈ st.chunks ∨
        (ch.text.length : ℤ) ≤ cs + (max st.buffer.length 1 : ℕ) := by
  intro fuel
  induction fuel with
  | zero =>
    intro tokens st st' hinv hlt' heq
    cases tokens with
    | nil =>
      rw [procTok_nil] at heq
      injection heq with heq
      subst heq
      exact ⟨hinv, hlt', by omega, fun ch h => Or.inl h⟩
    | cons t ts => exact absurd heq (by simp [procTok])
  | succ fuel IH =>
    intro tokens st st' hinv hlt' heq
    cases tokens with
    | nil =>
      rw [procTok_nil] at heq
      injection heq with heq
      subst heq
      exact ⟨hinv, hlt', by omega, fun ch h => Or.inl h⟩
    | cons t ts =>
      rw [procTok_cons_succ, if_neg (by omega)] at heq
      set r := (cs - (st.currentLen : ℤ)).toNat with hr
      set tk := (t :: ts).take r with htk
      set st1 : BufSt :=
        { st with buffer := st.buffer ++ [(pn, tk)],
                  currentLen := st.currentLen + tk.length } with hst1
      have hinv1 : bufInv st1 := by
        simp only [bufInv, hst1, sumLens_append]
        rw [bufInv] at hinv
        simp [sumLens, hinv]
      have htk_le : tk.length ≤ r := by
        simp [htk]
      have hcl1 : (st1.currentLen : ℤ) ≤ cs := by
        simp only [hst1]
        push_cast
        omega
      by_cases hfl : cs ≤ (st1.currentLen : ℤ)
      · rw [if_pos hfl] at heq
        have hne : st1.buffer ≠ [] := by simp [hst1]
        rcases hx : st1.buffer with _ | ⟨b, bs⟩
        · exact absurd hx hne
        obtain ⟨ch, hch, hchlen⟩ := pyFlush_chunks_cons co st1 b bs hx
        have hinv2 := pyFlush_bufInv co st1 hne
        have hcl2 := pyFlush_cl co st1 hne
        have hlt2 : ((pyFlush co st1).currentLen : ℤ) < cs := by
          rcases hcl2 with ⟨hz, _⟩ | ⟨_, hc, _, _⟩
          · rw [hz]; omega
          · rw [hc]; omega
        have hbl2 : (pyFlush co st1).buffer.length ≤ 1 := by
          rcases hcl2 with ⟨_, hb⟩ | ⟨_, _, hb, _⟩
          · rw [hb]; simp
          · omega
        obtain ⟨i1, i2, i3, i4⟩ := IH _ _ _ hinv2 hlt2 heq
        have hblen1 : st1.buffer.length = st.buffer.length + 1 := by
          simp [hst1]
        refine ⟨i1, i2, ?_, ?_⟩
        · have h2 : max ((pyFlush co st1).buffer.length + 1) 2 ≤ 2 :=
            Nat.max_le.mpr ⟨by omega, le_refl 2⟩
          exact le_trans i3 (le_trans h2 (Nat.le_max_right _ _))
        · intro ch' hch'
          rcases i4 ch' hch' with hin | hbound
          · rw [hch] at hin
            rcases List.mem_append.mp hin with h | h
            · left
              simpa [hst1] using h
            · simp only [List.mem_singleton] at h
              subst h
              right
              have hsum : sumLens st1.buffer = st1.currentLen := (hinv1).symm
              have hlen' : ch'.text.length
                  = st1.currentLen + st.buffer.length := by
                rw [hchlen, hsum, hblen1]
                have : st1.buffer.length = bs.length + 1 := by rw [hx]; rfl
                omega
              have : (max st.buffer.length 1 : ℕ) ≥ st.buffer.length :=
                Nat.le_max_left _ _
              omega
          · right
            have : (max (pyFlush co st1).buffer.length 1 : ℕ) = 1 := by
              omega
            rw [this] at hbound
            have h1 : (1 : ℕ) ≤ max st.buffer.length 1 := Nat.le_max_right _ _
            omega
      · rw [if_neg hfl] at heq
        have hlt1 : (st1.currentLen : ℤ) < cs := lt_of_not_le hfl
        have hlen_tok : (t :: ts).length ≤ r := by
          by_contra hgt
          push_neg at hgt
          have h1 : tk.length = r := by
            simp only [htk, List.length_take]
            omega
          have h2 : (st1.currentLen : ℤ) = cs := by
            simp only [hst1]
            push_cast
            omega
          omega
        rw [List.drop_eq_nil_of_le hlen_tok, procTok_nil] at heq
        injection heq with heq
        subst heq
        refine ⟨hinv1, hlt1, ?_, ?_⟩
        · have : st1.buffer.length = st.buffer.length + 1 := by simp [hst1]
          omega
        · intro ch hch
          left
          simpa [hst1] using hch

lemma procPages_bound (cs co : ℤ) (hco : 0 < co) (hlt : co < cs) :
    ∀ (pages : List (ℕ × List Char)) (st st' : BufSt) (B : ℕ), bufInv st →
      (st.currentLen : ℤ) < cs → st.buffer.length ≤ B → 1 ≤ B →
      procPages cs co pages st = some st' →
      bufInv st' ∧ (st'.currentLen : ℤ) < cs ∧
      st'.buffer.length ≤ B + pages.length ∧
      ∀ ch ∈ st'.chunks, ch ∈ st.chunks ∨
        (ch.text.length : ℤ) ≤ cs + (B : ℤ) + pages.length - 1 := by
  intro pages
  induction pages with
  | nil =>
    intro st st' B h1 h2 h3 h4 heq
    simp only [procPages] at heq
    injection heq with heq
    subst heq
    exact ⟨h1, h2, by simpa using h3, fun ch h => Or.inl h⟩
  | cons p rest IH =>
    rcases p with ⟨pn, tx⟩
    intro st st' B hinv hlt' hB hB1 heq
    simp only [procPages] at heq
    obtain ⟨st1, hTok, hRest⟩ := Option.bind_eq_some.mp heq
    obtain ⟨i1, i2, i3, i4⟩ := procTok_bound cs co pn hco hlt _ _ _ _ hinv hlt' hTok
    obtain ⟨j1, j2, j3, j4⟩ := IH st1 st' (B + 1) i1 i2
      (le_trans i3 (Nat.max_le.mpr ⟨by omega, by omega⟩)) (by omega) hRest
    refine ⟨j1, j2, by simp only [List.length_cons]; omega, ?_⟩
    intro ch hch
    rcases j4 ch hch with hin | hb
    · rcases i4 ch hin with hin' | hb'
      · exact Or.inl hin'
      · right
        have hmax : (max st.buffer.length 1 : ℕ) ≤ B := Nat.max_le.mpr ⟨hB, hB1⟩
        simp only [List.length_cons]
        omega
    · right
      simp only [List.length_cons]
      omega

/-- C1 counterexample: with `chunk_size = 3` and `chunk_overlap = 1`
(so `0 < overlap < chunk_size`) on three one-character pages, the first
emitted chunk has text of length `5 > 3 = chunk_size`: the chunker counts
only the page pieces in `current_len` but `"\n".join` inserts separators,
so the claimed bound `len(text) <= chunk_size` fails. -/
theorem c1_counterexample :
    (0 : ℤ) < 1 ∧ (1 : ℤ) < 3 ∧
    (split_into_chunks [(1, "a".toList), (2, "b".toList), (3, "c".toList)] 3 1).map
        (List.map fun c => c.text.length) = some [5, 1] ∧
    ¬ ((5 : ℤ) ≤ 3) := by
  refine ⟨by decide, by decide, by decide, by decide⟩

/-- C1 amended: for `0 < overlap < chunk_size`, every chunk emitted by
`split_into_chunks` has text of length at most
`chunk_size + (number of input pages)`: the sum of the buffered pieces in
a chunk never exceeds `chunk_size`, and the excess over `chunk_size` comes
only from the newline separators `"\n".join` inserts between the at most
`pages + 1` buffered pieces. -/
theorem c1_chunk_length_bound (pages : List (ℕ × List Char)) (cs co : ℤ)
    (chunks : List Chunk) (hco : 0 < co) (hlt : co < cs)
    (h : split_into_chunks pages cs co = some chunks) :
    ∀ ch ∈ chunks, (ch.text.length : ℤ) ≤ cs + pages.length := by
  unfold split_into_chunks at h
  obtain ⟨st', hproc, hchunks⟩ := Option.map_eq_some'.mp h
  have h0 : bufInv (⟨[], [], 0⟩ : BufSt) := rfl
  obtain ⟨i1, i2, i3, i4⟩ := procPages_bound cs co hco hlt pages _ st' 1 h0
    (by simpa using (by omega : (0 : ℤ) < cs)) (by simp) (le_refl 1) hproc
  subst hchunks
  intro ch hch
  by_cases hcl : 0 < st'.currentLen
  · rw [if_pos hcl] at hch
    have hne : st'.buffer ≠ [] := bufInv_ne_nil st' i1 hcl
    rcases hx : st'.buffer with _ | ⟨b, bs⟩
    · exact absurd hx hne
    obtain ⟨ch0, hch0, hlen0⟩ := pyFlush_chunks_cons co st' b bs hx
    rw [hch0] at hch
    rcases List.mem_append.mp hch with hmem | hmem
    · rcases i4 ch hmem with hin | hb
      · simp at hin
      · omega
    · simp only [List.mem_singleton] at hmem
      subst hmem
      have hblen : st'.buffer.length = bs.length + 1 := by rw [hx]; rfl
      have hsum : sumLens st'.buffer = st'.currentLen := i1.symm
      omega
  · rw [if_neg hcl] at hch
    rcases i4 ch hch with hin | hb
    · simp at hin
    · omega

/-- C1 witness: the amended bound at the counterexample input — both
emitted chunks have text length at most `3 + 3`. -/
theorem c1_chunk_length_bound_witness :
    (0 : ℤ) < 1 ∧ (1 : ℤ) < 3 ∧
    split_into_chunks [(1, "a".toList), (2, "b".toList), (3, "c".toList)] 3 1 =
      some [⟨"a\nb\nc".toList, 1, 3⟩, ⟨"c".toList, 3, 3⟩] ∧
    ∀ ch ∈ [(⟨"a\nb\nc".toList, 1, 3⟩ : Chunk), ⟨"c".toList, 3, 3⟩],
      (ch.text.length : ℤ) ≤ 3 +
        ([(1, "a".toList), (2, "b".toList), (3, "c".toList)].length : ℕ) :=
  ⟨by decide, by decide, by decide,
    c1_chunk_length_bound [(1, "a".toList), (2, "b".toList), (3, "c".toList)]
      3 1 _ (by decide) (by decide) (by decide)⟩

lemma procTok_total (cs co : ℤ) (pn : ℕ) (hcs : 0 < cs) :
    ∀ n : ℕ, ∀ tokens : List Char, tokens.length = n →
      ∀ st : BufSt, bufInv st → ∀ fuel : ℕ, 3 * n + 3 ≤ fuel →
      ∃ st', procTok cs co pn fuel tokens st = some st' ∧ bufInv st' := by
  intro n
  induction n using Nat.strong_induction_on with
  | _ n IH =>
    intro tokens hn st hinv fuel hfuel
    cases tokens with
    | nil => exact ⟨st, procTok_nil cs co pn fuel st, hinv⟩
    | cons t ts =>
      subst hn
      have consume : ∀ (st : BufSt), bufInv st → (st.currentLen : ℤ) < cs →
          ∀ fuel' : ℕ, 3 * (t :: ts).length ≤ fuel' →
          ∃ st', procTok cs co pn (fuel' + 1) (t :: ts) st = some st' ∧
            bufInv st' := by
        intro st hinv hlt fuel' hf
        rw [procTok_cons_succ, if_neg (by omega)]
        set r := (cs - (st.currentLen : ℤ)).toNat with hr
        set tk := (t :: ts).take r with htk
        set st1 : BufSt :=
          { st with buffer := st.buffer ++ [(pn, tk)],
                    currentLen := st.currentLen + tk.length } with hst1
        have hinv1 : bufInv st1 := by
          simp only [bufInv, hst1, sumLens_append]
          rw [bufInv] at hinv
          simp [sumLens, hinv]
        have hr1 : 1 ≤ r := by omega
        have hdrop : ((t :: ts).drop r).length < (t :: ts).length := by
          rw [List.length_drop]
          simp only [List.length_cons]
          omega
        by_cases hfl : cs ≤ (st1.currentLen : ℤ)
        · rw [if_pos hfl]
          have hne : st1.buffer ≠ [] := by simp [hst1]
          have hinv2 := pyFlush_bufInv co st1 hne
          exact IH _ hdrop _ rfl _ hinv2 fuel' (by
            simp only [List.length_cons] at hf ⊢
            rw [List.length_drop] at *
            simp only [List.length_cons] at *
            omega)
        · rw [if_neg hfl]
          exact IH _ hdrop _ rfl _ hinv1 fuel' (by
            rw [List.length_drop] at *
            simp only [List.length_cons] at *
            omega)
      obtain ⟨f, rfl⟩ : ∃ f, fuel = f + 1 := by
        cases fuel with
        | zero => omega
        | succ f => exact ⟨f, rfl⟩
      by_cases hlt : (st.currentLen : ℤ) < cs
      · exact consume st hinv hlt f (by omega)
      · rw [procTok_cons_succ, if_pos (by omega)]
        have h0cl : 0 < st.currentLen := by omega
        have hne := bufInv_ne_nil st hinv h0cl
        have hinv1 := pyFlush_bufInv co st hne
        have hcl1 := pyFlush_cl co st hne
        by_cases hlt1 : ((pyFlush co st).currentLen : ℤ) < cs
        · obtain ⟨f2, rfl⟩ : ∃ f2, f = f2 + 1 := by
            cases f with
            | zero => omega
            | succ f2 => exact ⟨f2, rfl⟩
          exact consume (pyFlush co st) hinv1 hlt1 f2 (by omega)
        · rcases hcl1 with ⟨hz, _⟩ | ⟨hcopos, hcl, hblen, hsum⟩
          · exact absurd (by rw [hz]; simpa using (by omega : (0 : ℤ) < cs)) hlt1
          · obtain ⟨f2, rfl⟩ : ∃ f2, f = f2 + 1 := by
              cases f with
              | zero => omega
              | succ f2 => exact ⟨f2, rfl⟩
            rw [procTok_cons_succ, if_pos (by omega)]
            rcases hx1 : (pyFlush co st).buffer with _ | ⟨b1, bs1⟩
            · rw [hx1] at hblen
              simp at hblen
            · have hbs1 : bs1 = [] := by
                rw [hx1] at hblen
                simp only [List.length_cons] at hblen
                exact List.length_eq_zero.mp (by omega)
              subst hbs1
              have hlen_b1 : ((b1.2.length : ℕ) : ℤ) ≤ co := by
                rw [hx1] at hsum
                simp only [sumLens, List.map_cons, List.map_nil,
                  List.sum_cons, List.sum_nil] at hsum
                omega
              obtain ⟨hz2, hinv2⟩ :=
                pyFlush_single_small co (pyFlush co st) b1 hx1 hlen_b1
              have hlt2 : ((pyFlush co (pyFlush co st)).currentLen : ℤ) < cs := by
                rw [hz2]
                simpa using (by omega : (0 : ℤ) < cs)
              obtain ⟨f3, rfl⟩ : ∃ f3, f2 = f3 + 1 := by
                cases f2 with
                | zero => simp only [List.length_cons] at hfuel; omega
                | succ f3 => exact ⟨f3, rfl⟩
              exact consume (pyFlush co (pyFlush co st)) hinv2 hlt2 f3 (by
                simp only [List.length_cons] at hfuel ⊢
                omega)

lemma procPages_total (cs co : ℤ) (hcs : 0 < cs) :
    ∀ (pages : List (ℕ × List Char)) (st : BufSt), bufInv st →
      ∃ st', procPages cs co pages st = some st' ∧ bufInv st' := by
  intro pages
  induction pages with
  | nil => intro st h; exact ⟨st, rfl, h⟩
  | cons p rest IH =>
    rcases p with ⟨pn, tx⟩
    intro st h
    obtain ⟨st1, h1, hinv1⟩ := procTok_total cs co pn hcs tx.length tx rfl st h
      (3 * tx.length + 3) (le_refl _)
    obtain ⟨st', h2, hinv2⟩ := IH st1 hinv1
    refine ⟨st', ?_, hinv2⟩
    simp only [procPages, h1, Option.bind_some]
    exact h2

/-- C5 counterexample: with `chunk_size = 2 <= 3 = chunk_overlap`,
`split_into_chunks` raises no configuration error: it processes the page
and returns two chunks (no validation exists in `split_into_chunks` or in
`config.py`, which reads `CHUNK_SIZE` and `CHUNK_OVERLAP` unchecked). -/
theorem c5_counterexample :
    (0 : ℤ) < 2 ∧ (2 : ℤ) ≤ 3 ∧
    split_into_chunks [(1, "abcd".toList)] 2 3 =
      some [⟨"ab".toList, 1, 1⟩, ⟨"cd".toList, 1, 1⟩] := by
  refine ⟨by decide, by decide, by decide⟩

/-- C5 amended: `chunk_size <= overlap` is not rejected: for every input
and every configuration with `0 < chunk_size <= overlap`, the chunking
loop terminates normally and returns a chunk list (it neither raises a
configuration error nor runs without bound; the overlap simply cannot be
carried in full). -/
theorem c5_no_config_validation (pages : List (ℕ × List Char)) (cs co : ℤ)
    (hcs : 0 < cs) (_hle : cs ≤ co) :
    ∃ chunks, split_into_chunks pages cs co = some chunks := by
  obtain ⟨st', h, _⟩ := procPages_total cs co hcs pages ⟨[], [], 0⟩ rfl
  refine ⟨if 0 < st'.currentLen then (pyFlush co st').chunks else st'.chunks, ?_⟩
  simp only [split_into_chunks, h, Option.map_some']

/-- C5 witness: the amended statement at `chunk_size = 2`, `overlap = 3`. -/
theorem c5_no_config_validation_witness :
    (0 : ℤ) < 2 ∧ (2 : ℤ) ≤ 3 ∧
    ∃ chunks, split_into_chunks [(1, "abcd".toList)] 2 3 = some chunks :=
  ⟨by decide, by decide,
    c5_no_config_validation [(1, "abcd".toList)] 2 3 (by decide) (by decide)⟩

lemma dotR_smul_left (a : ℝ) : ∀ (q w : RVec),
    dotR (q.map (fun x => a * x)) w = a * dotR q w := by
  intro q
  induction q with
  | nil => intro w; simp [dotR]
  | cons x xs IH =>
    intro w
    cases w with
    | nil => simp [dotR]
    | cons y ys =>
      simp only [List.map_cons, dotR, List.zipWith_cons_cons, List.sum_cons]
      have := IH ys
      simp only [dotR] at this
      rw [this]
      ring

lemma norm2_map_mul (c : ℝ) (hc : 0 ≤ c) (v : RVec) :
    norm2 (v.map (fun x => c * x)) = c * norm2 v := by
  unfold norm2
  rw [List.map_map]
  have hcomp : ((fun x => x * x) ∘ fun x : ℝ => c * x)
      = fun x : ℝ => (c * c) * (x * x) := by
    funext x
    simp [Function.comp]
    ring
  rw [hcomp, List.sum_map_mul_left, Real.sqrt_mul (mul_self_nonneg c),
    Real.sqrt_mul_self hc]

lemma filterMap_score_snd {α : Type} (d : List (ℤ × α)) (s : ℕ → ℝ) :
    ∀ ids : List ℕ,
      ((ids.filterMap fun (i : ℕ) =>
          (dictGet d (i : ℤ)).map fun m => (s i, m)).map Prod.snd)
        = ids.filterMap fun (i : ℕ) => dictGet d (i : ℤ) := by
  intro ids
  induction ids with
  | nil => rfl
  | cons i is IH =>
    cases hg : dictGet d (i : ℤ) with
    | none => simp [List.filterMap_cons, hg, IH]
    | some m => simp [List.filterMap_cons, hg, IH]

lemma cmpScore_pos_mul (a b : ℝ) (ha : 0 < a) (hb : 0 < b) (raw : ℕ → ℝ) :
    cmpScore (fun i => a * raw i) = cmpScore (fun i => b * raw i) := by
  funext i j
  unfold cmpScore
  simp only [mul_lt_mul_left ha, mul_lt_mul_left hb,
    mul_right_inj' ha.ne', mul_right_inj' hb.ne']

/-- C9 amended: for every store, query `v`, positive scalar `c` and
`top_k`, `search(c*v, top_k)` and `search(v, top_k)` return the same
metadata in the same order — but (by the counterexample) not always the
same scores: the `1e-12` added to the norm shifts the normalisation, and
for a query whose norm is comparable to `1e-12` the shift changes the
scores materially. -/
theorem c9_scale_query {α : Type} (st : FaissStore α) (q : RVec) (c : ℝ)
    (k : ℕ) (hc : 0 < c) :
    (st.search (q.map (fun x => c * x)) k).map Prod.snd
      = (st.search q k).map Prod.snd := by
  rcases st with ⟨idx, meta, nid⟩
  cases idx with
  | none => rfl
  | some vecs =>
    by_cases hn : vecs.length = 0
    · simp [FaissStore.search, hn]
    · have heps : 0 < eps := by unfold eps; positivity
      have hn2 : 0 ≤ norm2 q := Real.sqrt_nonneg _
      have hA0 : 0 < c / (c * norm2 q + eps) :=
        div_pos hc (add_pos_of_nonneg_of_pos (mul_nonneg hc.le hn2) heps)
      have hB0 : 0 < 1 / (norm2 q + eps) :=
        div_pos one_pos (add_pos_of_nonneg_of_pos hn2 heps)
      have hA : (fun (i : ℕ) =>
          dotR ((q.map fun x => c * x).map
            fun x => x / (norm2 (q.map fun x => c * x) + eps)) (vecs.getD i []))
          = fun (i : ℕ) =>
            (c / (c * norm2 q + eps)) * dotR q (vecs.getD i []) := by
        funext i
        rw [norm2_map_mul c hc.le q, List.map_map]
        have hcomp : ((fun x => x / (c * norm2 q + eps)) ∘ fun x : ℝ => c * x)
            = fun x : ℝ => (c / (c * norm2 q + eps)) * x := by
          funext x
          simp [Function.comp]
          ring
        rw [hcomp, dotR_smul_left]
      have hB : (fun (i : ℕ) =>
          dotR (q.map fun x => x / (norm2 q + eps)) (vecs.getD i []))
          = fun (i : ℕ) => (1 / (norm2 q + eps)) * dotR q (vecs.getD i []) := by
        funext i
        have hcomp : (fun x : ℝ => x / (norm2 q + eps))
            = fun x : ℝ => (1 / (norm2 q + eps)) * x := by
          funext x
          ring
        rw [hcomp, dotR_smul_left]
      simp only [FaissStore.search, hn, if_false]
      rw [filterMap_score_snd, filterMap_score_snd, hA, hB,
        cmpScore_pos_mul (c / (c * norm2 q + eps)) (1 / (norm2 q + eps)) hA0 hB0]

/-- C9 counterexample: on a store holding the single vector `(1, 0)`,
searching with the tiny query `(1e-12, 0)` scaled by `c = 2` returns a
different score than searching with `(1e-12, 0)` itself: with
`ε = 1e-12` the normalised queries are `ε/(ε+ε) = 1/2` and
`2ε/(2ε+ε) = 2/3`, so the scores differ by the factor `4/3` — a gap of
about `1/6`, far above float32 resolution, so the divergence survives the
program's `astype(np.float32)` casts.  The result sequences are therefore
not identical as the claim states. -/
theorem c9_counterexample :
    storeC9.search ([eps, (0 : ℝ)].map (fun x => (2 : ℝ) * x)) 1
      ≠ storeC9.search [eps, (0 : ℝ)] 1 := by
  have heps : (0 : ℝ) < eps := by unfold eps; positivity
  have h1 : norm2 [(1 : ℝ), 0] = 1 := by
    simp [norm2]
  have h2 : norm2 [eps, (0 : ℝ)] = eps := by
    simp only [norm2, List.map_cons, List.map_nil, List.sum_cons,
      List.sum_nil, mul_zero, add_zero]
    exact Real.sqrt_mul_self heps.le
  have h3 : norm2 [2 * eps, (0 : ℝ)] = 2 * eps := by
    simp only [norm2, List.map_cons, List.map_nil, List.sum_cons,
      List.sum_nil, mul_zero, add_zero]
    exact Real.sqrt_mul_self (by positivity)
  simp [storeC9, FaissStore.add, emptyStore, addMetas, dictSet,
    normalizeRow, FaissStore.search, sortIdx, insSorted, dictGet, dotR,
    List.range_succ, h1, h2, h3]
  refine ⟨?_, ?_⟩ <;> norm_num [eps]

/-- C9 witness: the amended statement at the concrete store, the tiny
query `(1e-12, 0)`, scalar `c = 2` and `top_k = 1`. -/
theorem c9_scale_query_witness :
    (0 : ℝ) < 2 ∧
    (storeC9.search ([eps, (0 : ℝ)].map (fun x => (2 : ℝ) * x)) 1).map Prod.snd
      = (storeC9.search [eps, (0 : ℝ)] 1).map Prod.snd :=
  ⟨two_pos, c9_scale_query storeC9 [eps, (0 : ℝ)] 2 1 two_pos⟩

end JhGov
